import Mathlib

/-!
Verification of the name-matching / ranking / availability engine of the
wuprankings service.  The JavaScript source is shallowly embedded: JS strings
become `String` (lists of `Char`), JS numbers become `ℚ`, JS `Map`s of arrays
become association lists, fallible steps become `Option`.  Regex-based string
rewriting (`normalizeName`) is modelled character by character; the word
boundary `\b` of JS regexes is the transition between `[A-Za-z0-9_]` and any
other character, so the global replace of `\b(jr|sr|ii|iii|iv)\b` deletes
exactly the maximal word-character runs equal to one of the five tokens.
`toLowerCase`, `\s` and `trim` are modelled on their ASCII fragment.
-/

/-- Word characters of the JS regex class `\w`, i.e. `[A-Za-z0-9_]`. -/
def isWordChar (c : Char) : Bool := c.isAlphanum || c == '_'

/-- Whitespace recognised by the model of the JS class `\s` (ASCII fragment:
space, tab, line feed, carriage return, vertical tab, form feed). -/
def isJsWs (c : Char) : Bool :=
  c == ' ' || c == '\t' || c == '\n' || c == '\r' || c == Char.ofNat 11 || c == Char.ofNat 12

/-- The apostrophe character, written by code to keep it out of the source text. -/
def apostrophe : Char := Char.ofNat 39

/-- Stage 1 of `normalizeName`: `.toLowerCase()` (ASCII case mapping). -/
def lowerChars (cs : List Char) : List Char := cs.map Char.toLower

/-- Stage 2 and 3 of `normalizeName`: `.replace(/\./g, "")` and the analogous
removal of apostrophes delete every occurrence of the character. -/
def removeChar (x : Char) (cs : List Char) : List Char := cs.filter (fun c => c ≠ x)

/-- Stage 4 of `normalizeName`: the global replace of a hyphen by a space. -/
def hyphensToSpaces (cs : List Char) : List Char :=
  cs.map (fun c => if c = '-' then ' ' else c)

/-- The five suffix tokens removed by `.replace(/\b(jr|sr|ii|iii|iv)\b/g, "")`. -/
def suffixTokens : List (List Char) :=
  [['j', 'r'], ['s', 'r'], ['i', 'i'], ['i', 'i', 'i'], ['i', 'v']]

/-- Emit an accumulated maximal word-character run: a run equal to one of the
suffix tokens is a regex match (both `\b` boundaries hold) and is deleted. -/
def flushRun (run : List Char) : List Char := if run ∈ suffixTokens then [] else run

/-- Scanner for stage 5 of `normalizeName`; `run` is the word-character run
read so far (always a prefix of a maximal run of the input). -/
def stripTokensGo (run : List Char) : List Char → List Char
  | [] => flushRun run
  | c :: cs =>
    if isWordChar c then stripTokensGo (run ++ [c]) cs
    else flushRun run ++ c :: stripTokensGo [] cs

/-- Stage 5 of `normalizeName`: `.replace(/\b(jr|sr|ii|iii|iv)\b/g, "")`. -/
def stripSuffixTokens (cs : List Char) : List Char := stripTokensGo [] cs

/-- Scanner for stage 6; the flag records whether the previous character was
whitespace (i.e. we are inside a run already represented by one space). -/
def collapseGo (inRun : Bool) : List Char → List Char
  | [] => []
  | c :: cs =>
    if isJsWs c then (if inRun then [] else [' ']) ++ collapseGo true cs
    else c :: collapseGo false cs

/-- Stage 6 of `normalizeName`: `.replace(/\s+/g, " ")`. -/
def collapseWs (cs : List Char) : List Char := collapseGo false cs

/-- Stage 7 of `normalizeName`: `.trim()` (ASCII whitespace fragment). -/
def trimChars (cs : List Char) : List Char :=
  ((cs.dropWhile isJsWs).reverse.dropWhile isJsWs).reverse

/-- All seven stages of `normalizeName`, on character lists. -/
def normalizeChars (cs : List Char) : List Char :=
  trimChars (collapseWs (stripSuffixTokens (hyphensToSpaces
    (removeChar apostrophe (removeChar '.' (lowerChars cs))))))

/-- The source's `normalizeName`: lower-case, drop periods and apostrophes,
hyphens to spaces, drop standalone suffix tokens, collapse whitespace, trim. -/
def normalizeName (s : String) : String := String.mk (normalizeChars s.data)

/-- JS `String.prototype.toLowerCase()` (ASCII fragment), used for the raw
lower-casing (without normalization) that the defense matching performs. -/
def lowerStr (s : String) : String := String.mk (lowerChars s.data)

/-- JS `String.prototype.trim()` on the modelled whitespace class. -/
def trimStr (s : String) : String := String.mk (trimChars s.data)

/-- Does `hay` start with `needle`? (helper for `includes`/`split`). -/
def startsWithL : List Char → List Char → Bool
  | [], _ => true
  | _ :: _, [] => false
  | n :: ns, h :: hs => n == h && startsWithL ns hs

/-- JS `String.prototype.includes`: `needle` occurs somewhere in `hay`. -/
def containsL (needle : List Char) : List Char → Bool
  | [] => startsWithL needle []
  | c :: cs => startsWithL needle (c :: cs) || containsL needle cs

/-- String wrapper for `containsL`: `hay.includes(needle)`. -/
def strContains (hay needle : String) : Bool := containsL needle.data hay.data

/-- JS `hay.split(sep)[0]`: the part of `hay` before the first occurrence of
`sep` (all of `hay` if `sep` does not occur). -/
def splitBeforeL (sep : List Char) : List Char → List Char
  | [] => []
  | c :: cs => if startsWithL sep (c :: cs) then [] else c :: splitBeforeL sep cs

/-- String wrapper for `splitBeforeL`. -/
def splitBefore (hay sep : String) : String := String.mk (splitBeforeL sep.data hay.data)

example : normalizeName "Cam Ward" = "cam ward" := by decide
example : normalizeName "Ja-Marr Chase" = "ja marr chase" := by decide
example : splitBefore "Denver D/ST" " D/ST" = "Denver" := by decide
example : strContains "denver broncos" "denver" = true := by decide

/-- Digits read from the front of a character list, with the rest. -/
def readDigits : List Char → List Nat × List Char
  | [] => ([], [])
  | c :: cs =>
    if c.isDigit then
      let p := readDigits cs
      ((c.toNat - 48) :: p.1, p.2)
    else ([], c :: cs)

/-- Value of a big-endian digit list. -/
def natOfDigits (ds : List Nat) : Nat := ds.foldl (fun a d => a * 10 + d) 0

/-- An optional leading sign; `true` means negative. -/
def readSign : List Char → Bool × List Char
  | [] => (false, [])
  | c :: cs => if c = '-' then (true, cs) else if c = '+' then (false, cs) else (false, c :: cs)

/-- Modelled from JS `parseFloat` restricted to finite decimal notation:
leading whitespace is skipped, then an optional sign, integer digits, an
optional fraction and an optional exponent are read as the longest numeric
prefix; `none` models `NaN` (no digits at all).  The `Infinity` spellings of
`parseFloat` are not modelled. -/
def parseFloatJs (s : String) : Option ℚ :=
  let cs := s.data.dropWhile isJsWs
  let sg := readSign cs
  let ip := readDigits sg.2
  let fr : List Nat × List Char :=
    match ip.2 with
    | c :: rest => if c = '.' then readDigits rest else ([], ip.2)
    | [] => ([], [])
  if ip.1.length + fr.1.length = 0 then none
  else
    let ex : Int :=
      match fr.2 with
      | c :: rest =>
        if c = 'e' ∨ c = 'E' then
          let esg := readSign rest
          let eds := readDigits esg.2
          if eds.1.length = 0 then 0
          else if esg.1 then -(natOfDigits eds.1 : Int) else (natOfDigits eds.1 : Int)
        else 0
      | [] => 0
    let mantNum : Nat := natOfDigits ip.1 * 10 ^ fr.1.length + natOfDigits fr.1
    let num : Int := if sg.1 then -(mantNum : Int) else (mantNum : Int)
    if ex ≥ 0 then some (mkRat (num * 10 ^ ex.toNat) (10 ^ fr.1.length))
    else some (mkRat num (10 ^ fr.1.length * 10 ^ (-ex).toNat))

example : parseFloatJs "0" = some 0 := by decide
example : parseFloatJs "12.4" = some (mkRat 62 5) := by decide
example : parseFloatJs "1e2" = some 100 := by decide
example : parseFloatJs "abc" = none := by decide
example : parseFloatJs "" = none := by decide

/-- A projection-catalog record: one CSV row that survived loading
(`{ player, position, fantasy, team }` in the source). -/
structure Proj where
  player : String
  position : String
  fantasy : ℚ
  team : String
deriving DecidableEq

/-- A name-index candidate (`{ player, position, fantasy }` in the source). -/
structure Cand where
  player : String
  position : String
  fantasy : ℚ
deriving DecidableEq

/-- A roster entry derived from the roster provider
(`{ id, name, position, isStarter }` in the source). -/
structure RosterEntry where
  id : String
  name : String
  position : String
  isStarter : Bool
deriving DecidableEq

/-- A team roster (`{ rosterId, teamName, entries }` in the source). -/
structure TeamRoster where
  rosterId : String
  teamName : String
  entries : List RosterEntry
deriving DecidableEq

/-- A matched player as pushed onto `details` by `estimateTeamPoints`. -/
structure MatchedPlayer where
  name : String
  position : String
  projected : ℚ
  isStarter : Bool
deriving DecidableEq

/-- The source's `NAME_ALIASES` map (eight symmetric entries). -/
def NAME_ALIASES : List (String × String) :=
  [("josh palmer", "joshua palmer"),
   ("joshua palmer", "josh palmer"),
   ("hollywood brown", "marquise brown"),
   ("marquise brown", "hollywood brown"),
   ("chig okonkwo", "chigoziem okonkwo"),
   ("chigoziem okonkwo", "chig okonkwo"),
   ("cam ward", "cameron ward"),
   ("cameron ward", "cam ward")]

/-- JS `NAME_ALIASES.get(key)`. -/
def aliasOf (k : String) : Option String :=
  (NAME_ALIASES.find? (fun p => p.1 == k)).map (fun p => p.2)

/-- One parsed CSV row as handed to the `data` callback: absent columns are
`none` (JS `undefined`). -/
structure CsvRow where
  player : Option String
  fantasy : Option String
  FPTS : Option String
  points : Option String
  team : Option String
deriving DecidableEq

/-- JS `a || b` on an optional string against a string default: the left side
wins when it is present and non-empty (truthy). -/
def jsOrS (a : Option String) (b : String) : String :=
  match a with
  | some s => if s = "" then b else s
  | none => b

/-- The points string chosen by `row.fantasy || row.FPTS || row.points || "0"`. -/
def chosenPoints (row : CsvRow) : String :=
  jsOrS row.fantasy (jsOrS row.FPTS (jsOrS row.points "0"))

/-- The row handler of `loadCsvProjections`: trims the player name, picks the
points string, and admits the record iff the name is non-empty and the points
string does not parse to `NaN`. -/
def admitRow (row : CsvRow) (position : String) : Option Proj :=
  let player := trimStr (jsOrS row.player "")
  match parseFloatJs (chosenPoints row) with
  | none => none
  | some q =>
    if player ≠ "" then some ⟨player, position, q, trimStr (jsOrS row.team "")⟩
    else none

/-- JS `Map.set` on a map kept as an insertion-ordered association list keyed
by `player`: an existing key keeps its position and gets the new record. -/
def insertRecord (m : List Proj) (rec : Proj) : List Proj :=
  if m.any (fun r => r.player == rec.player) then
    m.map (fun r => if r.player == rec.player then rec else r)
  else m ++ [rec]

/-- The pure content of the source's `loadCsvProjections`: fold the row
handler over the parsed rows (the `records` map in insertion order). -/
def loadCsvProjections (rows : List CsvRow) (position : String) : List Proj :=
  rows.foldl (fun m row =>
    match admitRow row position with
    | some rec => insertRecord m rec
    | none => m) []

/-- The source's `buildNameIndex`: every catalog record is pushed, in catalog
load order, under its normalized key and (when one exists) under that key's
alias.  The JS `Map` of arrays is kept as the ordered list of pushes, so that
`get k` is the ordered sublist of entries pushed under `k`. -/
def buildNameIndex (catalog : List Proj) : List (String × Cand) :=
  catalog.flatMap (fun p =>
    let key := normalizeName p.player
    let keys := key :: (aliasOf key).toList
    keys.map (fun k => (k, ⟨p.player, p.position, p.fantasy⟩)))

/-- JS `nameIndex.get(k) || []`: the candidates pushed under `k`, in order. -/
def idxGet (idx : List (String × Cand)) (k : String) : List Cand :=
  idx.filterMap (fun p => if p.1 == k then some p.2 else none)

/-- Step 1 of the matching policy: the first candidate under the entry's
normalized name whose position equals the entry's position. -/
def positionMatchStep (idx : List (String × Cand)) (e : RosterEntry) : Option Cand :=
  (idxGet idx (normalizeName e.name)).find? (fun m => m.position == e.position)

/-- Step 2 of the matching policy: the same position test among the
candidates of the key's alias, when the alias exists. -/
def aliasMatchStep (idx : List (String × Cand)) (e : RosterEntry) : Option Cand :=
  match aliasOf (normalizeName e.name) with
  | some a => (idxGet idx a).find? (fun m => m.position == e.position)
  | none => none

/-- Step 3 of the matching policy: the first candidate under the original
normalized key, regardless of position. -/
def anyCandidateStep (idx : List (String × Cand)) (e : RosterEntry) : Option Cand :=
  (idxGet idx (normalizeName e.name)).head?

/-- The candidate-resolution part of `estimateTeamPoints` (the `match`
variable of the source): step 1, then step 2, then step 3, each attempted
only when the previous ones found nothing. -/
def resolveEntry (idx : List (String × Cand)) (e : RosterEntry) : Option Cand :=
  match positionMatchStep idx e with
  | some m => some m
  | none =>
    match aliasMatchStep idx e with
    | some m => some m
    | none => anyCandidateStep idx e

/-- The defense-record test of `estimateTeamPoints`: the record is considered
only if its lower-cased name contains `"d/st"`; the franchise name is the part
of the (original-case) name before the first occurrence of the case-sensitive
`" D/ST"`; it matches if the lower-cased entry name contains the lower-cased
franchise name, or contains the lower-cased team code when that is nonempty. -/
def dstCondRank (entryName : String) (p : Proj) : Bool :=
  if strContains (lowerStr p.player) "d/st" then
    let teamName := splitBefore p.player " D/ST"
    strContains (lowerStr entryName) (lowerStr teamName)
      || (p.team ≠ "" && strContains (lowerStr entryName) (lowerStr p.team))
  else false

/-- The defense fallback scan of `estimateTeamPoints`: first record of the
defense catalog (in load order) passing `dstCondRank` wins. -/
def dstScanRank (entryName : String) (dsts : List Proj) : Option ℚ :=
  dsts.findSome? (fun p => if dstCondRank entryName p then some p.fantasy else none)

/-- One loop iteration of `estimateTeamPoints`, as the `MatchedPlayer` pushed
for the entry (`none` when the iteration pushes nothing): a resolved entry is
pushed with the record's points; an unresolved defense entry is pushed only
when the defense scan succeeds; any other unresolved entry is pushed with 0. -/
def processEntry (idx : List (String × Cand)) (dsts : List Proj) (e : RosterEntry) :
    Option MatchedPlayer :=
  match resolveEntry idx e with
  | some m => some ⟨e.name, e.position, m.fantasy, e.isStarter⟩
  | none =>
    if e.position == "DEF" || e.position == "DST" then
      match dstScanRank e.name dsts with
      | some f => some ⟨e.name, e.position, f, e.isStarter⟩
      | none => none
    else some ⟨e.name, e.position, 0, e.isStarter⟩

/-- The source's `estimateTeamPoints`: fold the per-entry fallback policy
over the roster, accumulating the total and the `details` list. -/
def estimateTeamPoints (roster : TeamRoster) (idx : List (String × Cand))
    (dsts : List Proj) : ℚ × List MatchedPlayer :=
  roster.entries.foldl (fun acc e =>
    match processEntry idx dsts e with
    | some d => (acc.1 + d.projected, acc.2 ++ [d])
    | none => acc) (0, [])

/-- One ranked-list element before rank assignment
(`{ teamName, totalProjected, players }` in the source). -/
structure TeamResult where
  teamName : String
  totalProjected : ℚ
  players : List MatchedPlayer
deriving DecidableEq

/-- A ranked team (`{ rank, teamName, totalProjected, players }`). -/
structure RankedTeam where
  rank : Nat
  teamName : String
  totalProjected : ℚ
  players : List MatchedPlayer
deriving DecidableEq

/-- Sorted insert for the model of the stable JS `Array.prototype.sort` under
the comparator on a descending numeric key: the new element goes before the
first element whose key is not larger, so equal keys keep input order. -/
def insertByDesc (key : α → ℚ) (x : α) : List α → List α
  | [] => [x]
  | y :: ys => if key y ≤ key x then x :: y :: ys else y :: insertByDesc key x ys

/-- Stable descending sort by a rational key, modelling the ECMAScript
(ES2019 and later) guarantee that `Array.prototype.sort` is stable. -/
def sortByDesc (key : α → ℚ) : List α → List α
  | [] => []
  | x :: xs => insertByDesc key x (sortByDesc key xs)

/-- The per-roster results of the rankings handler, in roster fetch order. -/
def teamResults (rosters : List TeamRoster) (idx : List (String × Cand))
    (dsts : List Proj) : List TeamResult :=
  rosters.map (fun r =>
    let p := estimateTeamPoints r idx dsts
    ⟨r.teamName, p.1, p.2⟩)

/-- The rank-assigning map of the rankings handler
(`results.map((r, idx) => ({ rank: idx + 1, ...r }))`). -/
def assignRanks (i : Nat) : List TeamResult → List RankedTeam
  | [] => []
  | r :: rs => ⟨i + 1, r.teamName, r.totalProjected, r.players⟩ :: assignRanks (i + 1) rs

/-- The rankings handler after data loading: estimate every roster, sort by
`totalProjected` descending (stable), and assign 1-based ranks. -/
def computeRankings (rosters : List TeamRoster) (idx : List (String × Cand))
    (dsts : List Proj) : List RankedTeam :=
  assignRanks 0 (sortByDesc (fun r : TeamResult => r.totalProjected) (teamResults rosters idx dsts))

/-- All roster entries across all teams, in fetch order. -/
def allEntries (rosters : List TeamRoster) : List RosterEntry :=
  rosters.flatMap (fun r => r.entries)

/-- Membership in the per-position rostered-name set of the availability
handler: the set for `pos` receives, for every entry of that position, the
normalized entry name and (when one exists) its alias. -/
def rosteredHas (rosters : List TeamRoster) (pos k : String) : Bool :=
  (allEntries rosters).any (fun e =>
    e.position == pos &&
      (normalizeName e.name == k || aliasOf (normalizeName e.name) == some k))

/-- The `rosteredDstTeams` list of the availability handler: the lower-cased
display names of every defense-position entry. -/
def rosteredDstTeams (rosters : List TeamRoster) : List String :=
  (allEntries rosters).filterMap (fun e =>
    if e.position == "DST" || e.position == "DEF" then some (lowerStr e.name) else none)

/-- Franchise-name derivation of the availability handler `isDstRostered`:
lower-case the record name, and when it contains `" d/st"` keep the part
before the first occurrence. -/
def dstFranchiseAvail (player : String) : String :=
  let lower := lowerStr player
  if strContains lower " d/st" then splitBefore lower " d/st" else lower

/-- The loop body of the availability handler's `isDstRostered`, applied to
one lower-cased rostered defense display name: that name contains the
record's franchise name, or contains its nonempty team code (lower-cased). -/
def dstEntryMatches (entryNameLower player team : String) : Bool :=
  strContains entryNameLower (dstFranchiseAvail player)
    || (team ≠ "" && strContains entryNameLower (lowerStr team))

/-- The availability handler's `isDstRostered`: some rostered defense display
name passes the franchise-name/team-code substring test. -/
def isDstRostered (rosters : List TeamRoster) (player team : String) : Bool :=
  (rosteredDstTeams rosters).any (fun rn => dstEntryMatches rn player team)

/-- The `taken` test of the availability handler for a non-defense record:
its normalized key, or that key's alias, is in its position's rostered-name
set. -/
def nonDstTaken (rosters : List TeamRoster) (rec : Proj) : Bool :=
  rosteredHas rosters rec.position (normalizeName rec.player) ||
    (match aliasOf (normalizeName rec.player) with
     | some a => rosteredHas rosters rec.position a
     | none => false)

/-- The availability filter: a defense record is kept iff `isDstRostered`
fails; any other record is kept iff it is not `taken`. -/
def availableKeep (rosters : List TeamRoster) (rec : Proj) : Bool :=
  if rec.position == "DST" then !(isDstRostered rosters rec.player rec.team)
  else !(nonDstTaken rosters rec)

/-- An availability-response element (`{ player, position, projected, team }`). -/
structure AvailablePlayer where
  player : String
  position : String
  projected : ℚ
  team : String
deriving DecidableEq

/-- The response object built from a kept catalog record. -/
def Proj.toAvail (p : Proj) : AvailablePlayer := ⟨p.player, p.position, p.fantasy, p.team⟩

/-- The availability handler after data loading: keep the unrostered catalog
records in load order and sort by projected points descending (stable). -/
def availableOutput (catalog : List Proj) (rosters : List TeamRoster) : List AvailablePlayer :=
  sortByDesc (fun a : AvailablePlayer => a.projected)
    ((catalog.filter (availableKeep rosters)).map Proj.toAvail)

/-- The built-in default league identifier of the source. -/
def DEFAULT_LEAGUE_ID : String := "1257482024906657792"

/-- JS `a || b` on strings: the left side wins when non-empty. -/
def jsOrStr (a b : String) : String := if a = "" then b else a

/-- League-identifier resolution of the combined server and of the serverless
availability and rankings functions: trimmed query parameter, else trimmed
environment value, else the built-in default. -/
def resolveLeagueIdMain (query env : Option String) : String :=
  jsOrStr (trimStr (jsOrS query "")) (jsOrStr (trimStr (jsOrS env "")) DEFAULT_LEAGUE_ID)

/-- League-identifier resolution of the thin rankings wrapper
(`process.env.LEAGUE_ID || String(req.query.leagueId || "").trim()`): the raw
environment value wins when non-empty, else the trimmed query parameter. -/
def resolveLeagueIdApi (query env : Option String) : String :=
  jsOrStr (jsOrS env "") (trimStr (jsOrS query ""))

/-- The wrapper handler's gate: `none` models the immediate 400
`Missing LEAGUE_ID` response (no computation is started); `some id` is the
identifier handed to `computeRankings`. -/
def rankingsApiGate (query env : Option String) : Option String :=
  let id := resolveLeagueIdApi query env
  if id = "" then none else some id

/-- League-identifier resolution claimed by the specification: explicit
per-request parameter, then configured value, then built-in default.
Modelled from the spec for comparison with the code's resolvers. -/
def resolveLeagueIdClaim (query env : Option String) : String :=
  jsOrStr (trimStr (jsOrS query "")) (jsOrStr (trimStr (jsOrS env "")) DEFAULT_LEAGUE_ID)

theorem find?_eq_head?_filter (p : α → Bool) (l : List α) :
    l.find? p = (l.filter p).head? := by
  induction l with
  | nil => rfl
  | cons x xs ih =>
    cases h : p x with
    | true => rw [List.find?_cons_of_pos _ h, List.filter_cons_of_pos h, List.head?_cons]
    | false => rw [List.find?_cons_of_neg _ (by simp [h]), List.filter_cons_of_neg (by simp [h]), ih]

theorem findSome?_if_filter (cond : α → Bool) (f : α → β) (l : List α) :
    (l.findSome? (fun a => if cond a then some (f a) else none)) =
      ((l.filter cond).head?).map f := by
  induction l with
  | nil => rfl
  | cons x xs ih =>
    by_cases h : cond x
    · simp [List.findSome?, List.filter, h]
    · simp only [List.findSome?, List.filter, h]
      simpa [h] using ih

theorem estimateTeamPoints_go (idx : List (String × Cand)) (dsts : List Proj)
    (entries : List RosterEntry) (t : ℚ) (d : List MatchedPlayer) :
    (entries.foldl (fun acc e =>
      match processEntry idx dsts e with
      | some m => (acc.1 + m.projected, acc.2 ++ [m])
      | none => acc) (t, d)).2 = d ++ entries.filterMap (processEntry idx dsts) := by
  induction entries generalizing t d with
  | nil => simp
  | cons e es ih =>
    cases h : processEntry idx dsts e with
    | none => simp [List.foldl, h, List.filterMap_cons, ih]
    | some m => simp [List.foldl, h, List.filterMap_cons, ih]

/-- The raw display name `D'Andre Swift Jr.` used in the specification's
normalizer examples, built by code to keep the apostrophe out of the text. -/
def swiftRaw : String :=
  String.mk ['D', apostrophe, 'A', 'n', 'd', 'r', 'e', ' ', 'S', 'w', 'i', 'f', 't', ' ', 'J', 'r', '.']

/-- Claim C8: the normalizer is the seven-stage pipeline (lower-case, drop
periods, drop apostrophes, hyphens to spaces, drop standalone suffix tokens,
collapse whitespace runs, trim), and on the three example names it yields
`cam ward`, `dandre swift` and `ja marr chase`. -/
theorem C8_normalizer :
    (∀ s : String, normalizeName s = String.mk (trimChars (collapseWs (stripSuffixTokens
      (hyphensToSpaces (removeChar apostrophe (removeChar '.' (lowerChars s.data))))))))
    ∧ normalizeName "Cam Ward" = "cam ward"
    ∧ normalizeName swiftRaw = "dandre swift"
    ∧ normalizeName "Ja-Marr Chase" = "ja marr chase" :=
  ⟨fun _ => rfl, by decide, by decide, by decide⟩

/-- Claim C2: the matching policy is ordered; step 1 takes the first
candidate of the normalized key with the entry's position, step 2 the first
position-matching candidate of the key's alias, step 3 the first candidate
of the original key regardless of position, and a later step runs only when
every earlier step found nothing. -/
theorem C2_match_policy : ∀ (idx : List (String × Cand)) (e : RosterEntry),
    (positionMatchStep idx e =
      ((idxGet idx (normalizeName e.name)).filter (fun m => m.position == e.position)).head?)
    ∧ (aliasMatchStep idx e =
        match aliasOf (normalizeName e.name) with
        | some a => ((idxGet idx a).filter (fun m => m.position == e.position)).head?
        | none => none)
    ∧ (∀ m, positionMatchStep idx e = some m → resolveEntry idx e = some m)
    ∧ (positionMatchStep idx e = none →
        ∀ m, aliasMatchStep idx e = some m → resolveEntry idx e = some m)
    ∧ (positionMatchStep idx e = none → aliasMatchStep idx e = none →
        resolveEntry idx e = (idxGet idx (normalizeName e.name)).head?) := by
  intro idx e
  refine ⟨?_, ?_, ?_, ?_, ?_⟩
  · exact find?_eq_head?_filter _ _
  · unfold aliasMatchStep
    cases aliasOf (normalizeName e.name) with
    | none => rfl
    | some a => exact find?_eq_head?_filter _ _
  · intro m h
    unfold resolveEntry
    rw [h]
  · intro h1 m h2
    unfold resolveEntry
    rw [h1, h2]
  · intro h1 h2
    unfold resolveEntry
    rw [h1, h2]
    rfl

/-- Concrete application of `C2_match_policy`: for the roster entry
`Cam Ward (WR)` against an index holding only a QB candidate under
`cam ward`, steps 1 and 2 find nothing and the position-agnostic step
returns the QB candidate. -/
theorem C2_witness :
    resolveEntry [("cam ward", ⟨"Cam Ward", "QB", 10⟩)] ⟨"1", "Cam Ward", "WR", false⟩ =
      some ⟨"Cam Ward", "QB", 10⟩ := by
  have h := (C2_match_policy [("cam ward", ⟨"Cam Ward", "QB", 10⟩)]
    ⟨"1", "Cam Ward", "WR", false⟩).2.2.2.2 (by decide) (by decide)
  rw [h]
  decide

/-- Claim C10: an entry resolved by the position-agnostic fallback is
reported with the roster entry's own display name and position while its
points come from the (possibly different-position) first candidate. -/
theorem C10_fallback_identity : ∀ (idx : List (String × Cand)) (dsts : List Proj)
    (e : RosterEntry) (c : Cand) (cs : List Cand),
    positionMatchStep idx e = none → aliasMatchStep idx e = none →
    idxGet idx (normalizeName e.name) = c :: cs →
    processEntry idx dsts e = some ⟨e.name, e.position, c.fantasy, e.isStarter⟩ := by
  intro idx dsts e c cs h1 h2 h3
  have hr : resolveEntry idx e = some c := by
    unfold resolveEntry
    rw [h1, h2]
    unfold anyCandidateStep
    rw [h3]
    rfl
  unfold processEntry
  rw [hr]

/-- Concrete application of `C10_fallback_identity`: the entry
`Cam Ward Jr. (WR)` resolves through the QB record `Cam Ward`, and the
emitted player keeps the entry's name and position with the record's points. -/
theorem C10_witness :
    processEntry [("cam ward", ⟨"Cam Ward", "QB", 10⟩)] [] ⟨"1", "Cam Ward Jr.", "WR", true⟩ =
      some ⟨"Cam Ward Jr.", "WR", 10, true⟩ :=
  C10_fallback_identity [("cam ward", ⟨"Cam Ward", "QB", 10⟩)] [] ⟨"1", "Cam Ward Jr.", "WR", true⟩
    ⟨"Cam Ward", "QB", 10⟩ [] (by decide) (by decide) (by decide)

/-- Claim C1, refuted: a defense-position entry that no step matches pushes
no `MatchedPlayer` at all, so a one-entry roster yields an empty `details`
list instead of one zero-scored entry. -/
theorem C1_counterexample :
    (estimateTeamPoints ⟨"1", "T", [⟨"9", "Nobody Defense", "DST", true⟩]⟩ [] []).2.length = 0
    ∧ (⟨"1", "T", [⟨"9", "Nobody Defense", "DST", true⟩]⟩ : TeamRoster).entries.length = 1 := by
  constructor
  · decide
  · decide

/-- Claim C1 (amended): the engine never errors (it is a total function); the
`details` list holds the per-entry pushes in order; every non-defense entry
pushes exactly one `MatchedPlayer` (with the record's points when resolved,
else 0); a defense entry that neither resolves nor passes the defense scan
pushes nothing. -/
theorem C1_amended : ∀ (idx : List (String × Cand)) (dsts : List Proj) (roster : TeamRoster),
    (estimateTeamPoints roster idx dsts).2 = roster.entries.filterMap (processEntry idx dsts)
    ∧ (∀ e : RosterEntry, (e.position == "DEF" || e.position == "DST") = false →
        processEntry idx dsts e = some ⟨e.name, e.position,
          (match resolveEntry idx e with | some m => m.fantasy | none => 0), e.isStarter⟩)
    ∧ (∀ e : RosterEntry, (e.position == "DEF" || e.position == "DST") = true →
        resolveEntry idx e = none → dstScanRank e.name dsts = none →
        processEntry idx dsts e = none) := by
  intro idx dsts roster
  refine ⟨?_, ?_, ?_⟩
  · unfold estimateTeamPoints
    exact estimateTeamPoints_go idx dsts roster.entries 0 []
  · intro e hdef
    unfold processEntry
    cases hr : resolveEntry idx e with
    | some m => rfl
    | none =>
      rw [hdef]
      rfl
  · intro e hdef hr hscan
    unfold processEntry
    rw [hr, hdef, hscan]
    rfl

/-- Concrete application of `C1_amended`: the unmatched entry
`Random Backup (WR)` still yields one `MatchedPlayer`, with 0 points. -/
theorem C1_witness :
    processEntry [] [] ⟨"7", "Random Backup", "WR", false⟩ =
      some ⟨"Random Backup", "WR", 0, false⟩ := by
  have h := (C1_amended [] [] ⟨"1", "T", []⟩).2.1 ⟨"7", "Random Backup", "WR", false⟩ (by decide)
  rw [h]
  decide

/-- Reversed prefix test: does `hay` end with `sep`? -/
def endsWithL (sep hay : List Char) : Bool := startsWithL sep.reverse hay.reverse

/-- Modelled from the claim C3 wording, for comparison with `dstCondRank`:
the franchise name is the record name with a trailing `" D/ST"` suffix
stripped case-insensitively, and every defense record is scanned. -/
def dstCondClaim (entryName : String) (p : Proj) : Bool :=
  let lower := lowerStr p.player
  let franchise :=
    if endsWithL (" d/st".data) lower.data then String.mk (lower.data.take (lower.data.length - 5))
    else lower
  strContains (lowerStr entryName) franchise
    || (p.team ≠ "" && strContains (lowerStr entryName) (lowerStr p.team))

/-- Modelled from the claim C3 wording: first claim-matching record wins. -/
def dstScanClaim (entryName : String) (dsts : List Proj) : Option ℚ :=
  dsts.findSome? (fun p => if dstCondClaim entryName p then some p.fantasy else none)

/-- Claim C3, refuted: the code splits on the case-sensitive `" D/ST"`, so a
record named `denver d/st` (no team code) never matches the roster entry
`Denver Broncos`, although the claimed case-insensitive trailing strip would
match it. -/
theorem C3_counterexample :
    dstScanRank "Denver Broncos" [⟨"denver d/st", "DST", 5, ""⟩] = none
    ∧ dstScanClaim "Denver Broncos" [⟨"denver d/st", "DST", 5, ""⟩] = some 5
    ∧ dstScanRank "Denver Broncos" [⟨"denver d/st", "DST", 5, ""⟩] ≠
        dstScanClaim "Denver Broncos" [⟨"denver d/st", "DST", 5, ""⟩] := by
  refine ⟨by decide, by decide, by decide⟩

/-- Claim C3 (amended): the scan considers only records whose lower-cased
name contains `d/st`; the franchise name is the original-case part before the
first occurrence of the case-sensitive `" D/ST"` (the full name when absent);
the first record in load order wins whose lower-cased franchise name, or
nonempty lower-cased team code, is a substring of the lower-cased entry name;
in particular `Denver D/ST` with team `DEN` matches `Denver Broncos` and
`DEN`. -/
theorem C3_amended :
    (∀ (n : String) (dsts : List Proj),
      dstScanRank n dsts = ((dsts.filter (dstCondRank n)).head?).map (fun p => p.fantasy))
    ∧ dstCondRank "Denver Broncos" ⟨"Denver D/ST", "DST", 6, "DEN"⟩ = true
    ∧ dstCondRank "DEN" ⟨"Denver D/ST", "DST", 6, "DEN"⟩ = true
    ∧ dstScanRank "Denver Broncos" [⟨"Denver D/ST", "DST", 6, "DEN"⟩] = some 6
    ∧ dstScanRank "DEN" [⟨"Denver D/ST", "DST", 6, "DEN"⟩] = some 6 := by
  refine ⟨fun n dsts => findSome?_if_filter (dstCondRank n) (fun p => p.fantasy) dsts,
    by decide, by decide, by decide, by decide⟩

/-- Claim C4, refuted: the thin rankings wrapper resolves the configured
environment value before the per-request query parameter, so with query `A`
and environment `B` it yields `B` where the claimed precedence yields `A`. -/
theorem C4_counterexample :
    resolveLeagueIdApi (some "A") (some "B") = "B"
    ∧ resolveLeagueIdClaim (some "A") (some "B") = "A"
    ∧ resolveLeagueIdApi (some "A") (some "B") ≠ resolveLeagueIdClaim (some "A") (some "B") := by
  refine ⟨by decide, by decide, by decide⟩

/-- Claim C4 (amended): the combined server and the availability and second
rankings handlers resolve query over environment over the built-in default
and, the default being non-empty, always produce an identifier; the thin
rankings wrapper instead resolves the raw environment value first, falls back
to the trimmed query parameter, has no default, and responds 400 before any
computation exactly when both are empty. -/
theorem C4_amended :
    (∀ query env : Option String, resolveLeagueIdMain query env = resolveLeagueIdClaim query env)
    ∧ (∀ query env : Option String, resolveLeagueIdMain query env ≠ "")
    ∧ (∀ query env : Option String,
        rankingsApiGate query env = none ↔ (jsOrS env "" = "" ∧ trimStr (jsOrS query "") = ""))
    ∧ (∀ query env : Option String,
        jsOrS env "" ≠ "" → resolveLeagueIdApi query env = jsOrS env "") := by
  refine ⟨fun query env => rfl, ?_, ?_, ?_⟩
  · intro query env
    unfold resolveLeagueIdMain jsOrStr
    split
    · split
      · decide
      · assumption
    · assumption
  · intro query env
    unfold rankingsApiGate resolveLeagueIdApi jsOrStr
    constructor
    · intro h
      by_cases he : jsOrS env "" = ""
      · simp only [if_pos he] at h
        by_cases hq : trimStr (jsOrS query "") = ""
        · exact ⟨he, hq⟩
        · simp [hq] at h
      · simp only [if_neg he] at h
        simp [he] at h
    · intro h
      simp [h.1, h.2]
  · intro query env h
    unfold resolveLeagueIdApi jsOrStr
    rw [if_neg h]

/-- Concrete application of `C4_amended`: a non-empty environment value wins
in the wrapper even when a query parameter is supplied. -/
theorem C4_witness : resolveLeagueIdApi (some "QQ") (some "ZZ") = "ZZ" :=
  (C4_amended.2.2.2 (some "QQ") (some "ZZ")) (by decide)

/-- Claim C5, refuted: a row with a player name and no points column at all
is not dropped; the points string defaults to `"0"` and the record is
admitted with 0 points. -/
theorem C5_counterexample :
    admitRow ⟨some "John Doe", none, none, none, none⟩ "QB" = some ⟨"John Doe", "QB", 0, ""⟩
    ∧ admitRow ⟨some "John Doe", none, none, none, none⟩ "QB" ≠ none := by
  refine ⟨by decide, by decide⟩

/-- Claim C5 (amended): the points string is the first present and non-empty
column among `fantasy`, `FPTS`, `points`, defaulting to `"0"` when all are
absent or empty (so such a row is admitted with 0 points); the row is
admitted exactly when the trimmed player name is non-empty and the chosen
string does not parse to `NaN`; only a non-numeric points string or an empty
player name drops the row. -/
theorem C5_admission : ∀ (row : CsvRow) (pos : String),
    ((admitRow row pos).isSome ↔
      (trimStr (jsOrS row.player "") ≠ "" ∧ (parseFloatJs (chosenPoints row)).isSome))
    ∧ ((row.fantasy = none ∨ row.fantasy = some "") → (row.FPTS = none ∨ row.FPTS = some "") →
        (row.points = none ∨ row.points = some "") → chosenPoints row = "0")
    ∧ (∀ s, row.fantasy = some s → s ≠ "" → chosenPoints row = s)
    ∧ (parseFloatJs (chosenPoints row) = none → admitRow row pos = none)
    ∧ (∀ q, parseFloatJs (chosenPoints row) = some q → trimStr (jsOrS row.player "") ≠ "" →
        admitRow row pos = some ⟨trimStr (jsOrS row.player ""), pos, q, trimStr (jsOrS row.team "")⟩) := by
  intro row pos
  refine ⟨?_, ?_, ?_, ?_, ?_⟩
  · unfold admitRow
    cases hp : parseFloatJs (chosenPoints row) with
    | none => simp [hp]
    | some q =>
      by_cases hn : trimStr (jsOrS row.player "") = ""
      · simp [hn, hp]
      · simp [hn, hp]
  · intro h1 h2 h3
    unfold chosenPoints jsOrS
    rcases h1 with h | h <;> rcases h2 with h2a | h2a <;> rcases h3 with h3a | h3a <;>
      simp [h, h2a, h3a]
  · intro s hs hne
    unfold chosenPoints jsOrS
    rw [hs]
    simp [hne]
  · intro h
    unfold admitRow
    rw [h]
  · intro q hq hn
    unfold admitRow
    rw [hq]
    simp [hn]

/-- Concrete application of `C5_admission`: a row with a padded player name,
a numeric `fantasy` column and a team code is admitted with the trimmed name
and parsed points. -/
theorem C5_witness :
    admitRow ⟨some " Tom ", some "7", none, none, some "KC"⟩ "QB" =
      some ⟨"Tom", "QB", 7, "KC"⟩ := by
  have h := (C5_admission ⟨some " Tom ", some "7", none, none, some "KC"⟩ "QB").2.2.2.2 7
    (by decide) (by decide)
  rw [h]
  decide

theorem insertByDesc_perm (key : α → ℚ) (x : α) (l : List α) :
    (insertByDesc key x l).Perm (x :: l) := by
  induction l with
  | nil => exact List.Perm.refl _
  | cons y ys ih =>
    unfold insertByDesc
    by_cases h : key y ≤ key x
    · rw [if_pos h]
    · rw [if_neg h]
      exact ((ih.cons y).trans (List.Perm.swap x y ys))

theorem sortByDesc_perm (key : α → ℚ) (l : List α) : (sortByDesc key l).Perm l := by
  induction l with
  | nil => exact List.Perm.refl _
  | cons x xs ih =>
    exact (insertByDesc_perm key x (sortByDesc key xs)).trans (ih.cons x)

theorem insertByDesc_pairwise (key : α → ℚ) (x : α) (l : List α)
    (h : List.Pairwise (fun a b => key b ≤ key a) l) :
    List.Pairwise (fun a b => key b ≤ key a) (insertByDesc key x l) := by
  induction l with
  | nil => simp [insertByDesc]
  | cons y ys ih =>
    unfold insertByDesc
    by_cases hy : key y ≤ key x
    · rw [if_pos hy]
      refine List.Pairwise.cons ?_ h
      intro b hb
      rcases List.mem_cons.mp hb with hb1 | hb2
      · subst hb1
        exact hy
      · exact le_trans ((List.pairwise_cons.mp h).1 b hb2) hy
    · rw [if_neg hy]
      rcases List.pairwise_cons.mp h with ⟨hy1, hy2⟩
      refine List.Pairwise.cons ?_ (ih hy2)
      intro b hb
      have hb2 := (insertByDesc_perm key x ys).mem_iff.mp hb
      rcases List.mem_cons.mp hb2 with hb3 | hb3
      · subst hb3
        exact le_of_not_le hy
      · exact hy1 b hb3

theorem sortByDesc_pairwise (key : α → ℚ) (l : List α) :
    List.Pairwise (fun a b => key b ≤ key a) (sortByDesc key l) := by
  induction l with
  | nil => exact List.Pairwise.nil
  | cons x xs ih => exact insertByDesc_pairwise key x (sortByDesc key xs) ih

theorem insertByDesc_filter_key (key : α → ℚ) (x : α) (l : List α) (q : ℚ) :
    (insertByDesc key x l).filter (fun a => key a == q) =
      if key x == q then x :: l.filter (fun a => key a == q)
      else l.filter (fun a => key a == q) := by
  induction l with
  | nil =>
    unfold insertByDesc
    by_cases h : key x == q
    · simp [List.filter, h]
    · simp [List.filter, h]
  | cons y ys ih =>
    unfold insertByDesc
    by_cases hy : key y ≤ key x
    · rw [if_pos hy]
      by_cases hx : key x == q
      · simp [List.filter, hx]
      · simp [List.filter, hx]
    · rw [if_neg hy]
      by_cases hx : key x == q
      · have hyq : (key y == q) = false := by
          have h1 : key x = q := by simpa using hx
          have h2 : ¬ key y = q := by
            intro h3
            exact hy (le_of_eq (h3.trans h1.symm))
          simpa using h2
        rw [List.filter_cons, hyq]
        simp only [if_pos hx] at ih ⊢
        rw [List.filter_cons, hyq]
        simpa using ih
      · rw [List.filter_cons]
        simp only [if_neg hx] at ih ⊢
        rw [List.filter_cons, ih]

theorem sortByDesc_filter_key (key : α → ℚ) (l : List α) (q : ℚ) :
    (sortByDesc key l).filter (fun a => key a == q) = l.filter (fun a => key a == q) := by
  induction l with
  | nil => rfl
  | cons x xs ih =>
    unfold sortByDesc
    rw [insertByDesc_filter_key, List.filter_cons]
    by_cases hx : key x == q
    · rw [if_pos hx, ih]
      simp [hx]
    · rw [if_neg hx, ih]
      simp [hx]

theorem assignRanks_map_rank (l : List TeamResult) (k : Nat) :
    (assignRanks k l).map (fun t => t.rank) = List.range' (k + 1) l.length := by
  induction l generalizing k with
  | nil => rfl
  | cons r rs ih =>
    unfold assignRanks
    rw [List.map_cons, ih, List.length_cons, List.range'_succ]

theorem assignRanks_map_total (l : List TeamResult) (k : Nat) :
    (assignRanks k l).map (fun t => t.totalProjected) = l.map (fun r => r.totalProjected) := by
  induction l generalizing k with
  | nil => rfl
  | cons r rs ih =>
    unfold assignRanks
    rw [List.map_cons, ih, List.map_cons]

/-- Claim C7: the rankings output is ordered by `totalProjected` descending;
ties keep the original roster fetch order (the elements of each equal-total
class appear exactly as in the unsorted per-roster results); the sort is a
permutation of the per-roster results; and the `rank` fields are exactly the
contiguous integers `1..N` in output order. -/
theorem C7_ranking_order : ∀ (rosters : List TeamRoster) (idx : List (String × Cand))
    (dsts : List Proj),
    List.Pairwise (fun a b : RankedTeam => b.totalProjected ≤ a.totalProjected)
      (computeRankings rosters idx dsts)
    ∧ (∀ q : ℚ,
        (sortByDesc (fun r : TeamResult => r.totalProjected) (teamResults rosters idx dsts)).filter
            (fun r => r.totalProjected == q) =
          (teamResults rosters idx dsts).filter (fun r => r.totalProjected == q))
    ∧ (sortByDesc (fun r : TeamResult => r.totalProjected)
        (teamResults rosters idx dsts)).Perm (teamResults rosters idx dsts)
    ∧ (computeRankings rosters idx dsts).map (fun t => t.rank) = List.range' 1 rosters.length := by
  intro rosters idx dsts
  refine ⟨?_, fun q => sortByDesc_filter_key _ _ q, sortByDesc_perm _ _, ?_⟩
  · have hs := sortByDesc_pairwise (fun r : TeamResult => r.totalProjected)
      (teamResults rosters idx dsts)
    have hmap : List.Pairwise (fun a b : ℚ => b ≤ a)
        ((computeRankings rosters idx dsts).map (fun t => t.totalProjected)) := by
      unfold computeRankings
      rw [assignRanks_map_total]
      exact (List.pairwise_map).mpr hs
    have := (List.pairwise_map).mp hmap
    exact this
  · unfold computeRankings
    rw [assignRanks_map_rank]
    have hlen : (sortByDesc (fun r : TeamResult => r.totalProjected)
        (teamResults rosters idx dsts)).length = rosters.length := by
      rw [(sortByDesc_perm _ _).length_eq]
      unfold teamResults
      rw [List.length_map]
    rw [hlen]


/-- Correspondence of one roster entry to one catalog record, stated
pointwise: a defense record corresponds to a defense-position entry passing
the franchise-name/team-code substring rule; any other record corresponds to
a same-position entry whose normalized name equals the record's normalized
name or is alias-related to it in either direction. -/
def correspondsB (e : RosterEntry) (rec : Proj) : Bool :=
  if rec.position == "DST" then
    (e.position == "DST" || e.position == "DEF") && dstEntryMatches (lowerStr e.name) rec.player rec.team
  else
    e.position == rec.position &&
      (normalizeName e.name == normalizeName rec.player
        || aliasOf (normalizeName e.name) == some (normalizeName rec.player)
        || aliasOf (normalizeName rec.player) == some (normalizeName e.name))

theorem aliasOf_mem (k a : String) (h : aliasOf k = some a) : (k, a) ∈ NAME_ALIASES := by
  unfold aliasOf at h
  cases hf : NAME_ALIASES.find? (fun p => p.1 == k) with
  | none =>
    rw [hf] at h
    exact Option.noConfusion h
  | some p =>
    rw [hf] at h
    have hp := List.mem_of_find?_eq_some hf
    have hk := List.find?_some hf
    have hk2 : p.1 = k := by simpa using hk
    have ha : p.2 = a := by simpa using h
    have hpk : p = (k, a) := by
      cases p
      simp_all
    rw [← hpk]
    exact hp

theorem aliasInj (k1 k2 a : String) (h1 : aliasOf k1 = some a) (h2 : aliasOf k2 = some a) :
    k1 = k2 := by
  have m1 := aliasOf_mem k1 a h1
  have m2 := aliasOf_mem k2 a h2
  have hinj : ∀ p ∈ NAME_ALIASES, ∀ q ∈ NAME_ALIASES, p.2 = q.2 → p.1 = q.1 := by decide
  exact hinj (k1, a) m1 (k2, a) m2 rfl

theorem rosteredHas_iff (rosters : List TeamRoster) (pos k : String) :
    rosteredHas rosters pos k = true ↔
      ∃ e ∈ allEntries rosters, e.position = pos ∧
        (normalizeName e.name = k ∨ aliasOf (normalizeName e.name) = some k) := by
  unfold rosteredHas
  rw [List.any_eq_true]
  constructor
  · rintro ⟨e, he, hcond⟩
    refine ⟨e, he, ?_⟩
    simpa using hcond
  · rintro ⟨e, he, hcond⟩
    refine ⟨e, he, ?_⟩
    simpa using hcond

theorem isDstRostered_iff (rosters : List TeamRoster) (player team : String) :
    isDstRostered rosters player team = true ↔
      ∃ e ∈ allEntries rosters, (e.position = "DST" ∨ e.position = "DEF") ∧
        dstEntryMatches (lowerStr e.name) player team = true := by
  unfold isDstRostered rosteredDstTeams
  rw [List.any_eq_true]
  constructor
  · rintro ⟨rn, hrn, hcond⟩
    rw [List.mem_filterMap] at hrn
    rcases hrn with ⟨e, he, heq⟩
    by_cases hd : (e.position == "DST" || e.position == "DEF") = true
    · rw [if_pos hd] at heq
      have hrn2 : rn = lowerStr e.name := by simpa using heq.symm
      subst hrn2
      refine ⟨e, he, ?_, hcond⟩
      simpa using hd
    · rw [if_neg hd] at heq
      exact Option.noConfusion heq
  · rintro ⟨e, he, hd, hcond⟩
    refine ⟨lowerStr e.name, ?_, hcond⟩
    rw [List.mem_filterMap]
    refine ⟨e, he, ?_⟩
    have hd2 : (e.position == "DST" || e.position == "DEF") = true := by simpa using hd
    rw [if_pos hd2]

theorem nonDstTaken_iff (rosters : List TeamRoster) (rec : Proj) :
    nonDstTaken rosters rec = true ↔
      ∃ e ∈ allEntries rosters, e.position = rec.position ∧
        (normalizeName e.name = normalizeName rec.player
          ∨ aliasOf (normalizeName e.name) = some (normalizeName rec.player)
          ∨ aliasOf (normalizeName rec.player) = some (normalizeName e.name)) := by
  unfold nonDstTaken
  cases halias : aliasOf (normalizeName rec.player) with
  | none =>
    rw [Bool.or_eq_true]
    constructor
    · rintro (h | h)
      · rcases (rosteredHas_iff _ _ _).mp h with ⟨e, he, hp, hd⟩
        exact ⟨e, he, hp, hd.elim (fun x => Or.inl x) (fun x => Or.inr (Or.inl x))⟩
      · exact Bool.noConfusion h
    · rintro ⟨e, he, hp, hd⟩
      left
      rcases hd with hd | hd | hd
      · exact (rosteredHas_iff _ _ _).mpr ⟨e, he, hp, Or.inl hd⟩
      · exact (rosteredHas_iff _ _ _).mpr ⟨e, he, hp, Or.inr hd⟩
      · exact Option.noConfusion hd
  | some a =>
    rw [Bool.or_eq_true]
    constructor
    · rintro (h | h)
      · rcases (rosteredHas_iff _ _ _).mp h with ⟨e, he, hp, hd⟩
        exact ⟨e, he, hp, hd.elim (fun x => Or.inl x) (fun x => Or.inr (Or.inl x))⟩
      · rcases (rosteredHas_iff _ _ _).mp h with ⟨e, he, hp, hd⟩
        rcases hd with hd | hd
        · refine ⟨e, he, hp, Or.inr (Or.inr ?_)⟩
          rw [hd]
        · refine ⟨e, he, hp, Or.inl ?_⟩
          exact aliasInj _ _ _ hd halias
    · rintro ⟨e, he, hp, hd⟩
      rcases hd with hd | hd | hd
      · exact Or.inl ((rosteredHas_iff _ _ _).mpr ⟨e, he, hp, Or.inl hd⟩)
      · exact Or.inl ((rosteredHas_iff _ _ _).mpr ⟨e, he, hp, Or.inr hd⟩)
      · refine Or.inr ((rosteredHas_iff _ _ _).mpr ⟨e, he, hp, Or.inl ?_⟩)
        exact (Option.some_inj.mp hd).symm

theorem availableKeep_iff (rosters : List TeamRoster) (rec : Proj) :
    availableKeep rosters rec = true ↔
      ¬ ∃ e ∈ allEntries rosters, correspondsB e rec = true := by
  by_cases hdst : (rec.position == "DST") = true
  · have hL : availableKeep rosters rec = !(isDstRostered rosters rec.player rec.team) := by
      unfold availableKeep
      rw [if_pos hdst]
    have hCor : ∀ e : RosterEntry, correspondsB e rec =
        ((e.position == "DST" || e.position == "DEF") &&
          dstEntryMatches (lowerStr e.name) rec.player rec.team) := by
      intro e
      unfold correspondsB
      rw [if_pos hdst]
    rw [hL, Bool.not_eq_eq_eq_not, Bool.not_true, ← Bool.not_eq_true, isDstRostered_iff]
    constructor
    · intro h hex
      rcases hex with ⟨e, he, hc⟩
      rw [hCor e] at hc
      rw [Bool.and_eq_true] at hc
      rcases hc with ⟨hp, hm⟩
      exact h ⟨e, he, by simpa using hp, hm⟩
    · intro h hex
      rcases hex with ⟨e, he, hp, hm⟩
      refine h ⟨e, he, ?_⟩
      rw [hCor e, Bool.and_eq_true]
      exact ⟨by simpa using hp, hm⟩
  · have hL : availableKeep rosters rec = !(nonDstTaken rosters rec) := by
      unfold availableKeep
      rw [if_neg hdst]
    have hCor : ∀ e : RosterEntry, correspondsB e rec =
        (e.position == rec.position &&
          (normalizeName e.name == normalizeName rec.player
            || aliasOf (normalizeName e.name) == some (normalizeName rec.player)
            || aliasOf (normalizeName rec.player) == some (normalizeName e.name))) := by
      intro e
      unfold correspondsB
      rw [if_neg hdst]
    rw [hL, Bool.not_eq_eq_eq_not, Bool.not_true, ← Bool.not_eq_true, nonDstTaken_iff]
    constructor
    · intro h hex
      rcases hex with ⟨e, he, hc⟩
      rw [hCor e] at hc
      rw [Bool.and_eq_true] at hc
      rcases hc with ⟨hp, hm⟩
      refine h ⟨e, he, by simpa using hp, ?_⟩
      simpa [or_assoc] using hm
    · intro h hex
      rcases hex with ⟨e, he, hp, hm⟩
      refine h ⟨e, he, ?_⟩
      rw [hCor e, Bool.and_eq_true]
      refine ⟨by simpa using hp, ?_⟩
      simpa [or_assoc] using hm

theorem toAvail_inj (p q : Proj) (h : p.toAvail = q.toAvail) : p = q := by
  cases p
  cases q
  simpa [Proj.toAvail, AvailablePlayer.mk.injEq, Proj.mk.injEq] using h

/-- Claim C6: a catalog record to which no roster entry corresponds (under
normalization and aliasing, or the defense substring rule) appears in the
availability output, and a record to which some entry corresponds does not. -/
theorem C6_availability : ∀ (catalog : List Proj) (rosters : List TeamRoster) (rec : Proj),
    rec ∈ catalog →
    ((¬ ∃ e ∈ allEntries rosters, correspondsB e rec = true) ↔
      rec.toAvail ∈ availableOutput catalog rosters) := by
  intro catalog rosters rec hmem
  rw [← availableKeep_iff]
  unfold availableOutput
  rw [(sortByDesc_perm _ _).mem_iff]
  constructor
  · intro hk
    exact List.mem_map_of_mem _ (List.mem_filter.mpr ⟨hmem, hk⟩)
  · intro hm
    rcases List.mem_map.mp hm with ⟨p, hp, hpe⟩
    have hpp : p = rec := toAvail_inj p rec hpe
    subst hpp
    exact (List.mem_filter.mp hp).2

/-- Concrete application of `C6_availability`: with no rosters, a catalog
record appears in the availability output. -/
theorem C6_witness :
    (⟨"Josh Palmer", "WR", 12, "LAC"⟩ : Proj).toAvail ∈
      availableOutput [⟨"Josh Palmer", "WR", 12, "LAC"⟩] [] :=
  (C6_availability [⟨"Josh Palmer", "WR", 12, "LAC"⟩] [] ⟨"Josh Palmer", "WR", 12, "LAC"⟩
    (by decide)).mp (by decide)

theorem charOfNat_toNat (n : Nat) (h : n.isValidChar) : (Char.ofNat n).toNat = n := by
  simp only [Char.ofNat, dif_pos h]
  rfl

theorem toLower_idem (c : Char) : c.toLower.toLower = c.toLower := by
  unfold Char.toLower
  by_cases h : c.toNat ≥ 65 ∧ c.toNat ≤ 90
  · have hv : (c.toNat + 32).isValidChar := by
      left
      omega
    simp only [if_pos h, charOfNat_toNat _ hv]
    have hn : ¬(c.toNat + 32 ≥ 65 ∧ c.toNat + 32 ≤ 90) := by omega
    rw [if_neg hn]
  · simp [h]

theorem ws_not_word (c : Char) (h : isJsWs c = true) : isWordChar c = false := by
  unfold isJsWs at h
  simp only [Bool.or_eq_true, beq_iff_eq] at h
  rcases h with ((((h | h) | h) | h) | h) | h <;> subst h <;> decide

theorem word_not_ws (c : Char) (h : isWordChar c = true) : isJsWs c = false := by
  by_cases hw : isJsWs c = true
  · rw [ws_not_word c hw] at h
    exact Bool.noConfusion h
  · simpa using hw

theorem mem_flushRun (x : Char) (r : List Char) (h : x ∈ flushRun r) : x ∈ r := by
  unfold flushRun at h
  by_cases hr : r ∈ suffixTokens
  · rw [if_pos hr] at h
    exact absurd h (List.not_mem_nil x)
  · rwa [if_neg hr] at h

theorem mem_stripTokensGo (x : Char) (cs : List Char) :
    ∀ r : List Char, x ∈ stripTokensGo r cs → x ∈ r ∨ x ∈ cs := by
  induction cs with
  | nil =>
    intro r h
    exact Or.inl (mem_flushRun x r h)
  | cons c cs ih =>
    intro r h
    unfold stripTokensGo at h
    by_cases hw : isWordChar c = true
    · rw [if_pos hw] at h
      rcases ih (r ++ [c]) h with h2 | h2
      · rcases List.mem_append.mp h2 with h3 | h3
        · exact Or.inl h3
        · exact Or.inr (List.mem_cons.mpr (Or.inl (List.mem_singleton.mp h3)))
      · exact Or.inr (List.mem_cons.mpr (Or.inr h2))
    · rw [if_neg hw] at h
      rcases List.mem_append.mp h with h2 | h2
      · exact Or.inl (mem_flushRun x r h2)
      · rcases List.mem_cons.mp h2 with h3 | h3
        · exact Or.inr (List.mem_cons.mpr (Or.inl h3))
        · rcases ih [] h3 with h4 | h4
          · exact absurd h4 (List.not_mem_nil x)
          · exact Or.inr (List.mem_cons.mpr (Or.inr h4))

theorem mem_collapseGo (x : Char) (cs : List Char) :
    ∀ b : Bool, x ∈ collapseGo b cs → x = ' ' ∨ x ∈ cs := by
  induction cs with
  | nil =>
    intro b h
    exact absurd h (List.not_mem_nil x)
  | cons c cs ih =>
    intro b h
    unfold collapseGo at h
    by_cases hw : isJsWs c = true
    · rw [if_pos hw] at h
      rcases List.mem_append.mp h with h2 | h2
      · cases b with
        | true => exact absurd h2 (List.not_mem_nil x)
        | false =>
          left
          simpa using h2
      · rcases ih true h2 with h3 | h3
        · exact Or.inl h3
        · exact Or.inr (List.mem_cons.mpr (Or.inr h3))
    · rw [if_neg hw] at h
      rcases List.mem_cons.mp h with h2 | h2
      · exact Or.inr (List.mem_cons.mpr (Or.inl h2))
      · rcases ih false h2 with h3 | h3
        · exact Or.inl h3
        · exact Or.inr (List.mem_cons.mpr (Or.inr h3))

theorem mem_trimChars (x : Char) (cs : List Char) (h : x ∈ trimChars cs) : x ∈ cs := by
  unfold trimChars at h
  rw [List.mem_reverse] at h
  have h2 := (List.dropWhile_sublist isJsWs).mem h
  rw [List.mem_reverse] at h2
  exact (List.dropWhile_sublist isJsWs).mem h2

theorem mem_removeChar (x y : Char) (cs : List Char) (h : x ∈ removeChar y cs) :
    x ∈ cs ∧ x ≠ y := by
  unfold removeChar at h
  have h2 := List.mem_filter.mp h
  refine ⟨h2.1, ?_⟩
  simpa using h2.2

theorem mem_hyphensToSpaces (x : Char) (cs : List Char) (h : x ∈ hyphensToSpaces cs) :
    x = ' ' ∨ (x ∈ cs ∧ x ≠ '-') := by
  unfold hyphensToSpaces at h
  rcases List.mem_map.mp h with ⟨y, hy, hxy⟩
  by_cases hyh : y = '-'
  · rw [hyh] at hxy
    simp at hxy
    exact Or.inl hxy.symm
  · rw [if_neg hyh] at hxy
    subst hxy
    exact Or.inr ⟨hy, hyh⟩

theorem mem_lowerChars (x : Char) (cs : List Char) (h : x ∈ lowerChars cs) :
    ∃ y : Char, x = Char.toLower y := by
  unfold lowerChars at h
  rcases List.mem_map.mp h with ⟨y, _, hxy⟩
  exact ⟨y, hxy.symm⟩

theorem normalizeChars_charFacts (s : List Char) (x : Char) (h : x ∈ normalizeChars s) :
    x.toLower = x ∧ x ≠ '.' ∧ x ≠ apostrophe ∧ x ≠ '-' := by
  unfold normalizeChars at h
  have h1 := mem_trimChars x _ h
  rcases mem_collapseGo x _ false h1 with hsp | h2
  · subst hsp
    refine ⟨by decide, by decide, by decide, by decide⟩
  · rcases mem_stripTokensGo x _ [] h2 with h3 | h3
    · exact absurd h3 (List.not_mem_nil x)
    · rcases mem_hyphensToSpaces x _ h3 with hsp | ⟨h4, hnh⟩
      · subst hsp
        refine ⟨by decide, by decide, by decide, by decide⟩
      · rcases mem_removeChar x apostrophe _ h4 with ⟨h5, hna⟩
        rcases mem_removeChar x '.' _ h5 with ⟨h6, hnd⟩
        rcases mem_lowerChars x _ h6 with ⟨y, hy⟩
        refine ⟨?_, hnd, hna, hnh⟩
        rw [hy]
        exact toLower_idem y

theorem map_eq_self_of (f : α → α) (l : List α) (h : ∀ x ∈ l, f x = x) : l.map f = l := by
  induction l with
  | nil => rfl
  | cons x xs ih =>
    rw [List.map_cons, h x (List.mem_cons_self x xs), ih (fun y hy => h y (List.mem_cons_of_mem x hy))]

theorem lowerChars_fixed (t : List Char) (h : ∀ x ∈ t, x.toLower = x) : lowerChars t = t :=
  map_eq_self_of Char.toLower t h

theorem removeChar_fixed (y : Char) (t : List Char) (h : ∀ x ∈ t, x ≠ y) :
    removeChar y t = t := by
  unfold removeChar
  rw [List.filter_eq_self]
  intro a ha
  simpa using h a ha

theorem hyphensToSpaces_fixed (t : List Char) (h : ∀ x ∈ t, x ≠ '-') :
    hyphensToSpaces t = t := by
  unfold hyphensToSpaces
  refine map_eq_self_of _ t ?_
  intro x hx
  rw [if_neg (h x hx)]

/-- Checker mirroring `stripTokensGo`: no maximal word-character run of
`run ++ cs` (with `run` the already-read prefix of the current run) equals a
suffix token, i.e. the token-stripping stage deletes nothing. -/
def goodGo (run : List Char) : List Char → Bool
  | [] => if run ∈ suffixTokens then false else true
  | c :: cs =>
    if isWordChar c then goodGo (run ++ [c]) cs
    else if run ∈ suffixTokens then false else goodGo [] cs

theorem goodGo_strip (cs : List Char) :
    ∀ r : List Char, goodGo r cs = true → stripTokensGo r cs = r ++ cs := by
  induction cs with
  | nil =>
    intro r h
    unfold goodGo at h
    unfold stripTokensGo flushRun
    by_cases hr : r ∈ suffixTokens
    · rw [if_pos hr] at h
      exact Bool.noConfusion h
    · rw [if_neg hr, List.append_nil]
  | cons c cs ih =>
    intro r h
    unfold goodGo at h
    unfold stripTokensGo
    by_cases hw : isWordChar c = true
    · rw [if_pos hw] at h ⊢
      rw [ih (r ++ [c]) h, List.append_assoc]
      rfl
    · rw [if_neg hw] at h ⊢
      by_cases hr : r ∈ suffixTokens
      · rw [if_pos hr] at h
        exact Bool.noConfusion h
      · rw [if_neg hr] at h
        unfold flushRun
        rw [if_neg hr, ih [] h]
        rfl

theorem goodGo_allWord (w : List Char) :
    ∀ r : List Char, (∀ c ∈ w, isWordChar c = true) →
      goodGo r w = (if (r ++ w) ∈ suffixTokens then false else true) := by
  induction w with
  | nil =>
    intro r _
    unfold goodGo
    rw [List.append_nil]
  | cons c cs ih =>
    intro r hall
    unfold goodGo
    rw [if_pos (hall c (List.mem_cons_self c cs))]
    rw [ih (r ++ [c]) (fun d hd => hall d (List.mem_cons_of_mem c hd)), List.append_assoc]
    rfl

theorem goodGo_append_run (w : List Char) :
    ∀ (a : List Char) (c : Char) (X : List Char), (∀ d ∈ w, isWordChar d = true) →
      isWordChar c = false →
      goodGo a (w ++ c :: X) = goodGo (a ++ w) (c :: X) := by
  induction w with
  | nil =>
    intro a c X _ _
    rw [List.nil_append, List.append_nil]
  | cons d ds ih =>
    intro a c X hall hc
    have hd : isWordChar d = true := hall d (List.mem_cons_self d ds)
    show goodGo a (d :: (ds ++ c :: X)) = goodGo (a ++ d :: ds) (c :: X)
    unfold goodGo
    rw [if_pos hd, ih (a ++ [d]) c X (fun e he => hall e (List.mem_cons_of_mem d he)) hc,
      List.append_assoc]
    rfl

theorem goodGo_stripTokensGo (cs : List Char) :
    ∀ r : List Char, (∀ c ∈ r, isWordChar c = true) →
      goodGo [] (stripTokensGo r cs) = true := by
  induction cs with
  | nil =>
    intro r hall
    unfold stripTokensGo flushRun
    by_cases hr : r ∈ suffixTokens
    · rw [if_pos hr]
      decide
    · rw [if_neg hr, goodGo_allWord r [] hall, List.nil_append, if_neg hr]
  | cons c cs ih =>
    intro r hall
    unfold stripTokensGo
    by_cases hw : isWordChar c = true
    · rw [if_pos hw]
      refine ih (r ++ [c]) ?_
      intro d hd
      rcases List.mem_append.mp hd with h | h
      · exact hall d h
      · rw [List.mem_singleton.mp h]
        exact hw
    · rw [if_neg hw]
      unfold flushRun
      by_cases hr : r ∈ suffixTokens
      · rw [if_pos hr, List.nil_append]
        show goodGo [] (c :: stripTokensGo [] cs) = true
        unfold goodGo
        rw [if_neg (by simpa using hw), if_neg (by decide)]
        exact ih [] (by intro d hd; exact absurd hd (List.not_mem_nil d))
      · rw [if_neg hr]
        rw [goodGo_append_run r [] c (stripTokensGo [] cs) hall (by simpa using hw),
          List.nil_append]
        show goodGo r (c :: stripTokensGo [] cs) = true
        unfold goodGo
        rw [if_neg (by simpa using hw), if_neg hr]
        exact ih [] (by intro d hd; exact absurd hd (List.not_mem_nil d))

theorem goodGo_collapseGo (cs : List Char) :
    ∀ (b : Bool) (r : List Char), (∀ c ∈ r, isWordChar c = true) → (b = true → r = []) →
      goodGo r cs = true → goodGo r (collapseGo b cs) = true := by
  induction cs with
  | nil =>
    intro b r _ _ h
    exact h
  | cons c cs ih =>
    intro b r hall hb h
    unfold collapseGo
    by_cases hws : isJsWs c = true
    · rw [if_pos hws]
      have hcw : isWordChar c = false := ws_not_word c hws
      unfold goodGo at h
      rw [if_neg (by simp [hcw])] at h
      by_cases hr : r ∈ suffixTokens
      · rw [if_pos hr] at h
        exact Bool.noConfusion h
      · rw [if_neg hr] at h
        cases b with
        | true =>
          rw [if_pos rfl, List.nil_append]
          have hre : r = [] := hb rfl
          subst hre
          exact ih true [] (by intro d hd; exact absurd hd (List.not_mem_nil d)) (fun _ => rfl) h
        | false =>
          show goodGo r (' ' :: collapseGo true cs) = true
          unfold goodGo
          rw [if_neg (by decide), if_neg hr]
          exact ih true [] (by intro d hd; exact absurd hd (List.not_mem_nil d)) (fun _ => rfl) h
    · rw [if_neg hws]
      by_cases hw : isWordChar c = true
      · unfold goodGo at h ⊢
        rw [if_pos hw] at h ⊢
        refine ih false (r ++ [c]) ?_ (by intro hfalse; exact Bool.noConfusion hfalse) h
        intro d hd
        rcases List.mem_append.mp hd with h2 | h2
        · exact hall d h2
        · rw [List.mem_singleton.mp h2]
          exact hw
      · unfold goodGo at h ⊢
        rw [if_neg hw] at h ⊢
        by_cases hr : r ∈ suffixTokens
        · rw [if_pos hr] at h
          exact Bool.noConfusion h
        · rw [if_neg hr] at h ⊢
          exact ih false [] (by intro d hd; exact absurd hd (List.not_mem_nil d))
            (by intro hfalse; exact Bool.noConfusion hfalse) h

theorem goodGo_dropWhileWs (cs : List Char) (h : goodGo [] cs = true) :
    goodGo [] (cs.dropWhile isJsWs) = true := by
  induction cs with
  | nil => exact h
  | cons c cs ih =>
    rw [List.dropWhile_cons]
    by_cases hws : isJsWs c = true
    · rw [if_pos hws]
      have hcw : isWordChar c = false := ws_not_word c hws
      unfold goodGo at h
      rw [if_neg (by simp [hcw]), if_neg (by decide)] at h
      exact ih h
    · rw [if_neg hws]
      exact h

theorem goodGo_dropTrailing (z : List Char) :
    ∀ (r w : List Char), (∀ c ∈ r, isWordChar c = true) → (∀ c ∈ w, isJsWs c = true) →
      goodGo r (z ++ w) = true → goodGo r z = true := by
  induction z with
  | nil =>
    intro r w _ hw h
    rw [List.nil_append] at h
    cases w with
    | nil => exact h
    | cons d ds =>
      have hdw : isWordChar d = false := ws_not_word d (hw d (List.mem_cons_self d ds))
      unfold goodGo at h
      rw [if_neg (by simp [hdw])] at h
      unfold goodGo
      by_cases hr : r ∈ suffixTokens
      · rw [if_pos hr] at h
        exact Bool.noConfusion h
      · rw [if_neg hr]
  | cons c z ih =>
    intro r w hall hw h
    rw [List.cons_append] at h
    unfold goodGo at h ⊢
    by_cases hcw : isWordChar c = true
    · rw [if_pos hcw] at h ⊢
      refine ih (r ++ [c]) w ?_ hw h
      intro d hd
      rcases List.mem_append.mp hd with h2 | h2
      · exact hall d h2
      · rw [List.mem_singleton.mp h2]
        exact hcw
    · rw [if_neg hcw] at h ⊢
      by_cases hr : r ∈ suffixTokens
      · rw [if_pos hr] at h
        exact Bool.noConfusion h
      · rw [if_neg hr] at h ⊢
        exact ih [] w (by intro d hd; exact absurd hd (List.not_mem_nil d)) hw h

theorem trimChars_decomp (cs : List Char) :
    cs.dropWhile isJsWs = trimChars cs ++ ((cs.dropWhile isJsWs).reverse.takeWhile isJsWs).reverse := by
  unfold trimChars
  have h1 := List.takeWhile_append_dropWhile isJsWs (cs.dropWhile isJsWs).reverse
  calc cs.dropWhile isJsWs
      = (cs.dropWhile isJsWs).reverse.reverse := (List.reverse_reverse _).symm
    _ = ((cs.dropWhile isJsWs).reverse.takeWhile isJsWs ++
          (cs.dropWhile isJsWs).reverse.dropWhile isJsWs).reverse := by rw [h1]
    _ = ((cs.dropWhile isJsWs).reverse.dropWhile isJsWs).reverse ++
          ((cs.dropWhile isJsWs).reverse.takeWhile isJsWs).reverse := by
        rw [List.reverse_append]

theorem goodGo_trimChars (cs : List Char) (h : goodGo [] cs = true) :
    goodGo [] (trimChars cs) = true := by
  have hA : goodGo [] (cs.dropWhile isJsWs) = true := goodGo_dropWhileWs cs h
  rw [trimChars_decomp cs] at hA
  refine goodGo_dropTrailing (trimChars cs) []
    ((cs.dropWhile isJsWs).reverse.takeWhile isJsWs).reverse
    (by intro d hd; exact absurd hd (List.not_mem_nil d)) ?_ hA
  intro c hc
  rw [List.mem_reverse] at hc
  exact List.mem_takeWhile_imp hc

theorem stripSuffixTokens_fixed (t : List Char) (h : goodGo [] t = true) :
    stripSuffixTokens t = t := by
  unfold stripSuffixTokens
  rw [goodGo_strip t [] h, List.nil_append]

/-- Every whitespace character of the list is a plain space. -/
def SpacesOnly (x : List Char) : Prop := ∀ c ∈ x, isJsWs c = true → c = ' '

/-- No two adjacent whitespace characters. -/
def NoWsPair (x : List Char) : Prop :=
  List.Chain' (fun a b => ¬(isJsWs a = true ∧ isJsWs b = true)) x

theorem collapseGo_fixed (x : List Char) :
    ∀ b : Bool, SpacesOnly x → NoWsPair x →
      (b = true → ∀ h ∈ x.head?, isJsWs h = false) → collapseGo b x = x := by
  induction x with
  | nil =>
    intro b _ _ _
    rfl
  | cons c cs ih =>
    intro b hS hN hb
    unfold collapseGo
    by_cases hws : isJsWs c = true
    · rw [if_pos hws]
      cases b with
      | true =>
        have := hb rfl c (by rw [List.head?_cons]; rfl)
        rw [this] at hws
        exact Bool.noConfusion hws
      | false =>
        have hsp : c = ' ' := hS c (List.mem_cons_self c cs) hws
        have hcs : collapseGo true cs = cs := by
          refine ih true (fun d hd hdw => hS d (List.mem_cons_of_mem c hd) hdw)
            ((List.chain'_cons'.mp hN).2) ?_
          intro _ d hd
          have hR := (List.chain'_cons'.mp hN).1 d hd
          by_cases hdw : isJsWs d = true
          · exact absurd ⟨hws, hdw⟩ hR
          · simpa using hdw
        rw [if_neg (by simp), hcs, hsp]
        rfl
    · rw [if_neg hws]
      rw [ih false (fun d hd hdw => hS d (List.mem_cons_of_mem c hd) hdw)
        ((List.chain'_cons'.mp hN).2) (by intro hfalse; exact Bool.noConfusion hfalse)]

theorem collapseGo_tidy (x : List Char) :
    ∀ b : Bool, SpacesOnly (collapseGo b x) ∧ NoWsPair (collapseGo b x) ∧
      (b = true → ∀ h ∈ (collapseGo b x).head?, isJsWs h = false) := by
  induction x with
  | nil =>
    intro b
    refine ⟨fun c hc => absurd hc (List.not_mem_nil c), List.chain'_nil, ?_⟩
    intro _ h hh
    exact absurd hh (by simp [collapseGo])
  | cons c cs ih =>
    intro b
    unfold collapseGo
    by_cases hws : isJsWs c = true
    · rw [if_pos hws]
      rcases ih true with ⟨hS, hN, hHd⟩
      cases b with
      | true =>
        rw [if_pos rfl, List.nil_append]
        exact ⟨hS, hN, fun _ => hHd rfl⟩
      | false =>
        rw [if_neg (by simp)]
        refine ⟨?_, ?_, ?_⟩
        · intro d hd hdw
          rcases List.mem_cons.mp hd with h2 | h2
          · exact h2
          · exact hS d h2 hdw
        · refine List.chain'_cons'.mpr ⟨?_, hN⟩
          intro y hy
          intro hcontra
          have := hHd rfl y hy
          rw [this] at hcontra
          exact Bool.noConfusion hcontra.2
        · intro hfalse
          exact Bool.noConfusion hfalse
    · rw [if_neg hws]
      rcases ih false with ⟨hS, hN, _⟩
      refine ⟨?_, ?_, ?_⟩
      · intro d hd hdw
        rcases List.mem_cons.mp hd with h2 | h2
        · subst h2
          exact absurd hdw (by simpa using hws)
        · exact hS d h2 hdw
      · refine List.chain'_cons'.mpr ⟨?_, hN⟩
        intro y _
        intro hcontra
        exact (by simpa using hws : ¬ isJsWs c = true) hcontra.1
      · intro _ d hd
        rw [List.head?_cons] at hd
        cases hd
        simpa using hws

theorem spacesOnly_trimChars (x : List Char) (h : SpacesOnly x) : SpacesOnly (trimChars x) :=
  fun c hc hcw => h c (mem_trimChars c x hc) hcw

theorem noWsPair_trimChars (x : List Char) (h : NoWsPair x) : NoWsPair (trimChars x) := by
  unfold NoWsPair at h ⊢
  unfold trimChars
  have hsym : ∀ (a b : Char), ¬(isJsWs a = true ∧ isJsWs b = true) →
      ¬(isJsWs b = true ∧ isJsWs a = true) := by
    intro a b hab hc
    exact hab ⟨hc.2, hc.1⟩
  have h1 := h.suffix (List.dropWhile_suffix isJsWs)
  have h2 := List.chain'_reverse.mpr (h1.imp (fun a b hab => hsym a b hab))
  have h3 := h2.suffix (List.dropWhile_suffix isJsWs)
  exact List.chain'_reverse.mpr (h3.imp (fun a b hab => hsym a b hab))

theorem head?_dropWhile_not (p : α → Bool) (l : List α) :
    ∀ a, (l.dropWhile p).head? = some a → p a = false := by
  induction l with
  | nil =>
    intro a ha
    exact Option.noConfusion ha
  | cons c cs ih =>
    intro a ha
    rw [List.dropWhile_cons] at ha
    by_cases hc : p c = true
    · rw [if_pos hc] at ha
      exact ih a ha
    · rw [if_neg hc] at ha
      rw [List.head?_cons] at ha
      cases ha
      simpa using hc

theorem dropWhile_eq_self_of_head (p : α → Bool) (l : List α)
    (h : ∀ a, l.head? = some a → p a = false) : l.dropWhile p = l := by
  cases l with
  | nil => rfl
  | cons c cs =>
    rw [List.dropWhile_cons, if_neg]
    rw [h c rfl]
    simp

theorem trimChars_idem (y : List Char) : trimChars (trimChars y) = trimChars y := by
  by_cases hB : (y.dropWhile isJsWs).reverse.dropWhile isJsWs = []
  · show trimChars (((y.dropWhile isJsWs).reverse.dropWhile isJsWs).reverse) =
      ((y.dropWhile isJsWs).reverse.dropWhile isJsWs).reverse
    rw [hB]
    rfl
  · have hheadA := head?_dropWhile_not isJsWs y
    have hheadB := head?_dropWhile_not isJsWs (y.dropWhile isJsWs).reverse
    have hlastB : ((y.dropWhile isJsWs).reverse.dropWhile isJsWs).getLast? =
        (y.dropWhile isJsWs).head? := by
      obtain ⟨pre, hpre⟩ := List.dropWhile_suffix (l := (y.dropWhile isJsWs).reverse) isJsWs
      obtain ⟨v, hv⟩ : ∃ v, ((y.dropWhile isJsWs).reverse.dropWhile isJsWs).getLast? = some v := by
        cases hg : ((y.dropWhile isJsWs).reverse.dropWhile isJsWs).getLast? with
        | none =>
          rw [List.getLast?_eq_none_iff] at hg
          exact absurd hg hB
        | some v => exact ⟨v, rfl⟩
      have h1 : (pre ++ (y.dropWhile isJsWs).reverse.dropWhile isJsWs).getLast? =
          ((y.dropWhile isJsWs).reverse.dropWhile isJsWs).getLast?.or pre.getLast? :=
        List.getLast?_append
      rw [hpre, List.getLast?_reverse, hv] at h1
      rw [hv, h1]
      rfl
    show trimChars (((y.dropWhile isJsWs).reverse.dropWhile isJsWs).reverse) =
      ((y.dropWhile isJsWs).reverse.dropWhile isJsWs).reverse
    unfold trimChars
    rw [dropWhile_eq_self_of_head isJsWs (((y.dropWhile isJsWs).reverse.dropWhile isJsWs).reverse)
      (by
        intro a ha
        rw [List.head?_reverse, hlastB] at ha
        exact hheadA a ha)]
    rw [List.reverse_reverse]
    rw [dropWhile_eq_self_of_head isJsWs ((y.dropWhile isJsWs).reverse.dropWhile isJsWs) hheadB]

theorem normalizeChars_idem (s : List Char) :
    normalizeChars (normalizeChars s) = normalizeChars s := by
  have hfacts := normalizeChars_charFacts s
  have h1 : lowerChars (normalizeChars s) = normalizeChars s :=
    lowerChars_fixed _ (fun x hx => (hfacts x hx).1)
  have h2 : removeChar '.' (normalizeChars s) = normalizeChars s :=
    removeChar_fixed _ _ (fun x hx => (hfacts x hx).2.1)
  have h3 : removeChar apostrophe (normalizeChars s) = normalizeChars s :=
    removeChar_fixed _ _ (fun x hx => (hfacts x hx).2.2.1)
  have h4 : hyphensToSpaces (normalizeChars s) = normalizeChars s :=
    hyphensToSpaces_fixed _ (fun x hx => (hfacts x hx).2.2.2)
  have hg : goodGo [] (normalizeChars s) = true := by
    unfold normalizeChars collapseWs
    exact goodGo_trimChars _ (goodGo_collapseGo _ false []
      (fun c hc => absurd hc (List.not_mem_nil c)) (fun _ => rfl)
      (goodGo_stripTokensGo _ [] (fun c hc => absurd hc (List.not_mem_nil c))))
  have hSN := collapseGo_tidy (stripSuffixTokens (hyphensToSpaces
    (removeChar apostrophe (removeChar '.' (lowerChars s))))) false
  have hS : SpacesOnly (normalizeChars s) := by
    unfold normalizeChars collapseWs
    exact spacesOnly_trimChars _ hSN.1
  have hN : NoWsPair (normalizeChars s) := by
    unfold normalizeChars collapseWs
    exact noWsPair_trimChars _ hSN.2.1
  have h5 : stripSuffixTokens (normalizeChars s) = normalizeChars s :=
    stripSuffixTokens_fixed _ hg
  have h6 : collapseWs (normalizeChars s) = normalizeChars s := by
    unfold collapseWs
    exact collapseGo_fixed _ false hS hN (fun hf => Bool.noConfusion hf)
  have h7 : trimChars (normalizeChars s) = normalizeChars s := by
    unfold normalizeChars
    exact trimChars_idem _
  show trimChars (collapseWs (stripSuffixTokens (hyphensToSpaces
    (removeChar apostrophe (removeChar '.' (lowerChars (normalizeChars s))))))) =
    normalizeChars s
  rw [h1, h2, h3, h4, h5, h6, h7]

/-- Claim C9: the normalizer is a pure function of its input (it is a plain
Lean function) and is idempotent: normalizing twice equals normalizing once,
for every string. -/
theorem C9_normalize_idem : ∀ s : String, normalizeName (normalizeName s) = normalizeName s := by
  intro s
  show String.mk (normalizeChars (String.mk (normalizeChars s.data)).data) =
    String.mk (normalizeChars s.data)
  have hdata : (String.mk (normalizeChars s.data)).data = normalizeChars s.data := rfl
  rw [hdata, normalizeChars_idem]
